import Mathlib

/-!
Verification of the cursor-context classifier from `suggest/cursorcontext.go`.

The Go file classifies the syntactic context around an editing cursor from the
token stream produced by the standard library scanner (`go/scanner`).  The
development below is a shallow embedding:

* `Tok`, `token_item`, `token_iterator` mirror the Go data model
  (`token.Token` restricted to the kinds the classifier inspects,
  `token_item`, `token_iterator`).  Byte positions use the `go/token`
  convention `pos = offset + 1` (a single file whose base is 1), and the
  iterator index is an `Int` exactly as Go's `int` (it is `-1` for an empty
  token list).
* `scanFuel` models the external lexer (`go/scanner.Scanner` with a nil error
  handler and mode 0) on the fragment of Go exercised here: ASCII
  identifiers and keywords, decimal integer literals, double-quoted strings
  (including the unterminated case), the punctuation the classifier inspects,
  and automatic semicolon insertion at newline and end of input.  The lexer is
  an explicit external collaborator of the spec ("treated as a black box"), so
  this model is part of the embedding, written to follow `go/scanner`.
* Loops are embedded with an explicit fuel argument so that every definition
  is structurally recursive and kernel-evaluable; every call site passes
  `token_index.toNat + 1` fuel, which is sufficient because each loop
  iteration performs a successful `go_back` and hence strictly decreases the
  index.  A result of `none` models a Go runtime panic (out-of-bounds token
  access); fuel exhaustion also yields `none` and is proved unreachable.
-/

/-- Token kinds (`go/token.Token`) restricted to the closed set that
`cursorcontext.go` distinguishes, plus `ILLEGAL` (the zero value used by the
missing-key lookup in `bracket_pairs_map`) and the literal kinds that can
occur in the scanned input. -/
inductive Tok where
  | ILLEGAL
  | IDENT
  | INT
  | STRING
  | PERIOD
  | COMMA
  | SEMICOLON
  | COLON
  | LPAREN
  | RPAREN
  | LBRACK
  | RBRACK
  | LBRACE
  | RBRACE
  | IMPORT
  | TYPE
  | CONST
  | VAR
  | FUNC
  | PACKAGE
deriving DecidableEq, Repr

/-- `token.Token.IsLiteral`: literal-bearing kinds among the ones we model. -/
def Tok.isLiteralTok : Tok → Bool
  | .IDENT | .INT | .STRING => true
  | _ => false

/-- `token.Token.String()` restricted to our kinds (canonical textual form). -/
def Tok.toText : Tok → String
  | .ILLEGAL => "ILLEGAL"
  | .IDENT => "IDENT"
  | .INT => "INT"
  | .STRING => "STRING"
  | .PERIOD => "."
  | .COMMA => ","
  | .SEMICOLON => ";"
  | .COLON => ":"
  | .LPAREN => "("
  | .RPAREN => ")"
  | .LBRACK => "["
  | .RBRACK => "]"
  | .LBRACE => "\x7b"
  | .RBRACE => "\x7d"
  | .IMPORT => "import"
  | .TYPE => "type"
  | .CONST => "const"
  | .VAR => "var"
  | .FUNC => "func"
  | .PACKAGE => "package"

/-- `token_item` from the source: a token kind with its literal text. -/
structure token_item where
  tok : Tok
  lit : String
deriving DecidableEq, Repr

instance : Inhabited token_item := ⟨⟨.ILLEGAL, ""⟩⟩

/-- `token_item.literal()`. -/
def token_item.literal (i : token_item) : String :=
  if i.tok.isLiteralTok then i.lit else i.tok.toText

/-- `token_iterator` from the source: the pre-cursor token sequence plus a
movable read index (a Go `int`, hence `Int`; it is `len(tokens)-1 = -1` for an
empty sequence). -/
structure token_iterator where
  tokens : List token_item
  token_index : Int
deriving DecidableEq, Repr

/-- `token_iterator.token()`.  Go indexes `tokens[token_index]` and panics out
of bounds; `none` models the panic. -/
def token_iterator.token? (it : token_iterator) : Option token_item :=
  if 0 ≤ it.token_index then it.tokens[it.token_index.toNat]? else none

/-- `token_iterator.go_back()`: decrement the read index, reporting whether it
stayed valid; at index `<= 0` the iterator is left unchanged and `false` is
returned. -/
def token_iterator.go_back (it : token_iterator) : token_iterator × Bool :=
  if it.token_index ≤ 0 then (it, false)
  else ({ it with token_index := it.token_index - 1 }, true)

/-- `bracket_pairs_map`: closer kind to opener kind; a missing key yields the
zero value `ILLEGAL`, as a Go map lookup does. -/
def bracket_pairs_map : Tok → Tok
  | .RPAREN => .LPAREN
  | .RBRACK => .LBRACK
  | .RBRACE => .LBRACE
  | _ => .ILLEGAL

/-- The `for balance != 0` loop of `token_iterator.skip_to_left`. -/
def skip_loop : Nat → token_iterator → Tok → Tok → Int →
    Option (token_iterator × Bool)
  | 0, _, _, _, _ => none
  | fuel + 1, it, left, right, balance =>
    if balance = 0 then some (it, true)
    else
      match it.go_back with
      | (it0, false) => some (it0, false)
      | (it1, true) =>
        (it1.token?).bind fun t =>
          skip_loop fuel it1 left right
            (if t.tok = right then balance + 1
             else if t.tok = left then balance - 1 else balance)

/-- `token_iterator.skip_to_left`. -/
def token_iterator.skip_to_left (it : token_iterator) (left right : Tok) :
    Option (token_iterator × Bool) :=
  (it.token?).bind fun t =>
    if t.tok = left then some (it, true)
    else skip_loop (it.token_index.toNat + 1) it left right 1

/-- `token_iterator.skip_to_balanced_pair`. -/
def token_iterator.skip_to_balanced_pair (it : token_iterator) :
    Option (token_iterator × Bool) :=
  (it.token?).bind fun t => it.skip_to_left (bracket_pairs_map t.tok) t.tok

/-- `token_iterator.skip_to_left_curly`. -/
def token_iterator.skip_to_left_curly (it : token_iterator) :
    Option (token_iterator × Bool) :=
  it.skip_to_left .LBRACE .RBRACE

/-- `token_iterator.extract_struct_type`.  The caller discards the mutated
iterator, so only the string result is returned. -/
def token_iterator.extract_struct_type (it : token_iterator) : Option String :=
  (it.skip_to_left_curly).bind fun p =>
    if p.2 = false then some ""
    else
      match p.1.go_back with
      | (_, false) => some ""
      | (it1, true) =>
        (it1.token?).bind fun t1 =>
          if t1.tok ≠ .IDENT then some ""
          else
            let b := t1.literal
            match it1.go_back with
            | (_, false) => some b
            | (it2, true) =>
              (it2.token?).bind fun t2 =>
                if t2.tok ≠ .PERIOD then some b
                else
                  match it2.go_back with
                  | (_, false) => some b
                  | (it3, true) =>
                    (it3.token?).bind fun t3 =>
                      if t3.tok ≠ .IDENT then some b
                      else some (t3.literal ++ "." ++ b)

/-- `token_items_to_string`. -/
def token_items_to_string (ts : List token_item) : String :=
  ts.foldl (fun b t => b ++ t.literal) ""

/-- The labeled `loop` of `token_iterator.extract_go_expr`.  `orig` is the
saved starting index, `prev` the kind of the previously accepted token.  A
`break loop` returns the reassembly of `tokens[token_index+1 : orig]`;
exhaustion returns the reassembly of `tokens[: orig]`. -/
def ege_loop : Nat → token_iterator → Int → Tok → Option String
  | 0, _, _, _ => none
  | fuel + 1, it, orig, prev =>
    match it.go_back with
    | (it0, false) => some (token_items_to_string (it0.tokens.take orig.toNat))
    | (it1, true) =>
      (it1.token?).bind fun t =>
        let breakRes : token_iterator → Option String := fun itb =>
          some (token_items_to_string
            ((itb.tokens.take orig.toNat).drop (itb.token_index + 1).toNat))
        let cont : token_iterator → Option String := fun itc =>
          (itc.token?).bind fun t2 => ege_loop fuel itc orig t2.tok
        match t.tok with
        | .PERIOD => if prev = .IDENT then cont it1 else breakRes it1
        | .IDENT =>
          if prev = .PERIOD ∨ prev = .LBRACK ∨ prev = .LBRACE ∨ prev = .LPAREN
          then cont it1 else breakRes it1
        | .RBRACE =>
          if prev = .PERIOD
          then (it1.skip_to_balanced_pair).bind fun p => cont p.1
          else breakRes it1
        | .RPAREN =>
          if prev = .PERIOD ∨ prev = .LBRACK ∨ prev = .LPAREN
          then (it1.skip_to_balanced_pair).bind fun p => cont p.1
          else breakRes it1
        | .RBRACK =>
          if prev = .PERIOD ∨ prev = .LBRACK ∨ prev = .LPAREN
          then (it1.skip_to_balanced_pair).bind fun p => cont p.1
          else breakRes it1
        | _ => breakRes it1

/-- `token_iterator.extract_go_expr`. -/
def token_iterator.extract_go_expr (it : token_iterator) : Option String :=
  (it.token?).bind fun t =>
    ege_loop (it.token_index.toNat + 1) it it.token_index t.tok

/-- ASCII letter or underscore (`go/scanner.isLetter` on the ASCII range). -/
def isLetterCh (c : Char) : Bool := c.isAlpha || c = '_'

/-- ASCII decimal digit. -/
def isDigitCh (c : Char) : Bool := c.isDigit

/-- Identifier continuation character. -/
def isIdentCh (c : Char) : Bool := isLetterCh c || isDigitCh c

/-- The double-quote character, kept symbolic. -/
def quoteCh : Char := Char.ofNat 34

/-- The open/close curly brace characters, kept symbolic. -/
def lbraceCh : Char := Char.ofNat 123

/-- See `lbraceCh`. -/
def rbraceCh : Char := Char.ofNat 125

/-- `token.Lookup` restricted to the keywords the classifier distinguishes;
every other word is an identifier. -/
def kwLookup (s : String) : Tok :=
  if s = "import" then .IMPORT
  else if s = "type" then .TYPE
  else if s = "const" then .CONST
  else if s = "var" then .VAR
  else if s = "func" then .FUNC
  else if s = "package" then .PACKAGE
  else .IDENT

/-- Single-character punctuation tokens with their `insertSemi` flag
(`go/scanner`: only `)`, `]` and the closing brace set it). -/
def punctTok (c : Char) : Option (Tok × Bool) :=
  if c = '.' then some (.PERIOD, false)
  else if c = ',' then some (.COMMA, false)
  else if c = ';' then some (.SEMICOLON, false)
  else if c = ':' then some (.COLON, false)
  else if c = '(' then some (.LPAREN, false)
  else if c = ')' then some (.RPAREN, true)
  else if c = '[' then some (.LBRACK, false)
  else if c = ']' then some (.RBRACK, true)
  else if c = lbraceCh then some (.LBRACE, false)
  else if c = rbraceCh then some (.RBRACE, true)
  else none

/-- One scanned token: its `go/token` position (`byte offset + 1`, file base
1), kind, and literal text (empty for punctuation, as `Scan` returns). -/
structure scan_tok where
  pos : Nat
  tok : Tok
  lit : String
deriving DecidableEq, Repr

/-- Modelled from the spec: the external lexer (`go/scanner.Scanner.Scan` with
nil error handler, mode 0), which the spec treats as a black box turning
source bytes into classified tokens.  `off` is the byte offset of the next
unread character, `semi` the pending automatic-semicolon flag.  Covered
fragment: whitespace, newline semicolon insertion, ASCII
identifiers/keywords, decimal integers, double-quoted strings without escape
sequences (an unterminated string ends at end of input or newline, its
literal being the text scanned so far, as in `scanString`), the punctuation
of `cursorcontext.go`, and a final automatic semicolon at end of input.
Other characters become `ILLEGAL` and preserve the semicolon flag.  Fuel is
consumed once per emitted or skipped prefix, each of which is nonempty, so
`length + 2` fuel (see `scan_go`) never runs out. -/
def scanFuel : Nat → List Char → Nat → Bool → List scan_tok
  | 0, _, _, _ => []
  | _ + 1, [], off, semi =>
    if semi then [⟨off + 1, .SEMICOLON, "\n"⟩] else []
  | fuel + 1, c :: rest, off, semi =>
    if c = ' ' ∨ c = '\t' ∨ c = '\r' then scanFuel fuel rest (off + 1) semi
    else if c = '\n' then
      if semi then ⟨off + 1, .SEMICOLON, "\n"⟩ :: scanFuel fuel rest (off + 1) false
      else scanFuel fuel rest (off + 1) false
    else if isLetterCh c then
      let tail := rest.takeWhile isIdentCh
      let lit := String.mk (c :: tail)
      let tk := kwLookup lit
      ⟨off + 1, tk, lit⟩ ::
        scanFuel fuel (rest.dropWhile isIdentCh) (off + 1 + tail.length)
          (match tk with | .IDENT => true | _ => false)
    else if isDigitCh c then
      let tail := rest.takeWhile isDigitCh
      ⟨off + 1, .INT, String.mk (c :: tail)⟩ ::
        scanFuel fuel (rest.dropWhile isDigitCh) (off + 1 + tail.length) true
    else if c = quoteCh then
      let notEnd : Char → Bool := fun d => !(d = quoteCh ∨ d = '\n')
      let body := rest.takeWhile notEnd
      match rest.dropWhile notEnd with
      | [] =>
        ⟨off + 1, .STRING, String.mk (c :: body)⟩ ::
          scanFuel fuel [] (off + 1 + body.length) true
      | d :: rest2 =>
        if d = quoteCh then
          ⟨off + 1, .STRING, String.mk (c :: (body ++ [d]))⟩ ::
            scanFuel fuel rest2 (off + 2 + body.length) true
        else
          ⟨off + 1, .STRING, String.mk (c :: body)⟩ ::
            scanFuel fuel (d :: rest2) (off + 1 + body.length) true
    else
      match punctTok c with
      | some (tk, si) => ⟨off + 1, tk, ""⟩ :: scanFuel fuel rest (off + 1) si
      | none => ⟨off + 1, .ILLEGAL, String.mk [c]⟩ :: scanFuel fuel rest (off + 1) semi

/-- The token stream of a source buffer (see `scanFuel`). -/
def scan_go (src : List Char) : List scan_tok :=
  scanFuel (src.length + 2) src 0 false

/-- The collection loop of `new_token_iterator`: append every token whose
position is strictly before `cursorPos`, tracking `lastPos` (initially
`token.NoPos = 0`), and stop at the first token at or after the cursor. -/
def collect_loop : List scan_tok → Int → Int → List token_item × Int
  | [], lastPos, _ => ([], lastPos)
  | s :: rest, lastPos, cursorPos =>
    if cursorPos ≤ (s.pos : Int) then ([], lastPos)
    else
      let p := collect_loop rest (s.pos : Int) cursorPos
      (⟨s.tok, s.lit⟩ :: p.1, p.2)

/-- `new_token_iterator(src, cursor)`: the iterator over the pre-cursor
tokens (read index on the last one) and the trailing offset
`cursorPos - lastPos`, where `cursorPos = cursor + 1` is the `go/token`
position of the cursor. -/
def new_token_iterator (src : List Char) (cursor : Nat) : token_iterator × Int :=
  let cursorPos : Int := (cursor : Int) + 1
  let p := collect_loop (scan_go src) 0 cursorPos
  (⟨p.1, (p.1.length : Int) - 1⟩, cursorPos - p.2)

/-- `cursorContext` from the source. -/
inductive cursorContext where
  | unknownContext
  | importContext
  | selectContext
  | compositeLiteralContext
deriving DecidableEq, Repr

/-- Character-level slice `s[a:b]` of a Go string (the sources handled here
are ASCII, so characters coincide with bytes). -/
def strSlice (s : String) (a b : Nat) : String :=
  String.mk ((s.data.take b).drop a)

/-- Prefix `s[:n]`. -/
def strTake (s : String) (n : Nat) : String := String.mk (s.data.take n)

/-- Final step of the import-declaration walk: require the `import` keyword;
success yields `(import, "", path[1:off])`, anything else degrades to
`(unknown, "", "")`. -/
def importStepD (path : String) (off : Int) (it4 : token_iterator) :
    Option (cursorContext × String × String) :=
  (it4.token?).bind fun t4 =>
    if t4.tok ≠ .IMPORT then some (.unknownContext, "", "")
    else some (.importContext, "", strSlice path 1 off.toNat)

/-- Middle part of one iteration of the import-declaration walk: handle a
semicolon (previous grouped import line, continuing the loop through `rec`),
an opening parenthesis (start of a grouped import block), then delegate to
`importStepD`. -/
def importStepC (rec : token_iterator → Option (cursorContext × String × String))
    (path : String) (off : Int) (it2 : token_iterator) :
    Option (cursorContext × String × String) :=
  (it2.token?).bind fun t2 =>
    if t2.tok = .SEMICOLON then
      match it2.go_back with
      | (_, false) => some (.unknownContext, "", "")
      | (it3, true) =>
        (it3.token?).bind fun t3 =>
          if t3.tok ≠ .STRING then some (.unknownContext, "", "")
          else rec it3
    else if t2.tok = .LPAREN then
      match it2.go_back with
      | (_, false) => some (.unknownContext, "", "")
      | (it4, true) => importStepD path off it4
    else importStepD path off it2

/-- The `for` loop inside the string-literal branch of
`deduce_cursor_context_helper`, which walks backwards testing whether the
string under the cursor is an import path.  Every `break` degrades to
`(unknown, "", "")`.  Each iteration steps back, additionally skips one
identifier-or-period token, and continues through `importStepC`. -/
def importWalk : Nat → token_iterator → String → Int →
    Option (cursorContext × String × String)
  | 0, _, _, _ => none
  | fuel + 1, iter, path, off =>
    match iter.go_back with
    | (_, false) => some (.unknownContext, "", "")
    | (it1, true) =>
      (it1.token?).bind fun t1 =>
        if t1.tok = .IDENT ∨ t1.tok = .PERIOD then
          match it1.go_back with
          | (_, false) => some (.unknownContext, "", "")
          | (it2, true) =>
            importStepC (fun it3 => importWalk fuel it3 path off) path off it2
        else importStepC (fun it3 => importWalk fuel it3 path off) path off it1

/-- The final `switch` of `deduce_cursor_context_helper`, reached with the
iterator either moved back past the partial identifier or untouched. -/
def classify_tail (it : token_iterator) (partialId : String) :
    Option (cursorContext × String × String) :=
  (it.token?).bind fun t2 =>
    match t2.tok with
    | .PERIOD => (it.extract_go_expr).map fun e => (.selectContext, e, partialId)
    | .COMMA => (it.extract_struct_type).map fun e =>
        (.compositeLiteralContext, e, partialId)
    | .LBRACE => (it.extract_struct_type).map fun e =>
        (.compositeLiteralContext, e, partialId)
    | _ => some (.unknownContext, "", partialId)

/-- Body of `deduce_cursor_context_helper` after the iterator has been
constructed. -/
def deduce_with (iter : token_iterator) (off : Int) :
    Option (cursorContext × String × String) :=
  if iter.tokens.length = 0 then some (.unknownContext, "", "")
  else
    (iter.token?).bind fun tok =>
      if tok.tok = .STRING then
        let path := tok.literal
        if (path.length : Int) ≤ off then some (.unknownContext, "", "")
        else importWalk (iter.token_index.toNat + 1) iter path off
      else if tok.tok = .IDENT ∨ tok.tok = .TYPE ∨ tok.tok = .CONST ∨
          tok.tok = .VAR ∨ tok.tok = .FUNC ∨ tok.tok = .PACKAGE then
        if tok.tok = .IDENT ∧ (tok.literal.length : Int) < off then
          some (.unknownContext, "", "")
        else
          let partialId :=
            if tok.tok = .IDENT then strTake tok.literal off.toNat
            else tok.literal
          match iter.go_back with
          | (_, false) => some (.unknownContext, "", partialId)
          | (it2, true) => classify_tail it2 partialId
      else classify_tail iter ""

/-- `deduce_cursor_context_helper(file, cursor)`. -/
def deduce_cursor_context_helper (file : List Char) (cursor : Nat) :
    Option (cursorContext × String × String) :=
  let p := new_token_iterator file cursor
  deduce_with p.1 p.2

/-- A bracket kind (opener or closer of one of the three families). -/
def isBracketTok : Tok → Bool
  | .LPAREN | .RPAREN | .LBRACK | .RBRACK | .LBRACE | .RBRACE => true
  | _ => false

/-- The three opener/closer bracket families of `bracket_pairs_map`. -/
inductive IsPair : Tok → Tok → Prop
  | paren : IsPair .LPAREN .RPAREN
  | brack : IsPair .LBRACK .RBRACK
  | brace : IsPair .LBRACE .RBRACE

/-- Properly nested (Dyck) kind sequences over the three bracket families;
non-bracket kinds are atoms. -/
inductive BalancedToks : List Tok → Prop
  | nil : BalancedToks []
  | atom {t : Tok} {ts : List Tok} : isBracketTok t = false → BalancedToks ts →
      BalancedToks (t :: ts)
  | pair {l r : Tok} {inner rest : List Tok} : IsPair l r → BalancedToks inner →
      BalancedToks rest → BalancedToks (l :: (inner ++ r :: rest))

/-- Number of occurrences of kind `t` among a token-item list. -/
def cntTok (t : Tok) (s : List token_item) : Nat :=
  (s.map token_item.tok).count t


/-! ## Basic lemmas about the iterator -/

theorem list_get_middle {α : Type} (A : List α) (x : α) (B : List α) :
    (A ++ x :: B)[A.length]? = some x := by
  induction A with
  | nil => simp
  | cons a A ih => simpa using ih

theorem token?_eq_get (it : token_iterator) (h0 : 0 ≤ it.token_index) :
    it.token? = it.tokens[it.token_index.toNat]? := by
  simp [token_iterator.token?, h0]

theorem token?_isSome (it : token_iterator) (h0 : 0 ≤ it.token_index)
    (h1 : it.token_index < it.tokens.length) :
    ∃ t, it.token? = some t := by
  have hlt : it.token_index.toNat < it.tokens.length := by omega
  exact ⟨it.tokens.get ⟨it.token_index.toNat, hlt⟩, by
    simp [token?_eq_get it h0, List.getElem?_eq_getElem hlt]⟩

theorem go_back_stay (it : token_iterator) (h : it.token_index ≤ 0) :
    it.go_back = (it, false) := by
  simp [token_iterator.go_back, h]

theorem go_back_step (it : token_iterator) (h : 1 ≤ it.token_index) :
    it.go_back = ({ it with token_index := it.token_index - 1 }, true) := by
  have : ¬ it.token_index ≤ 0 := by omega
  simp [token_iterator.go_back, this]

theorem go_back_true_inv {it it1 : token_iterator}
    (h : it.go_back = (it1, true)) :
    it1 = { it with token_index := it.token_index - 1 } ∧ 1 ≤ it.token_index := by
  by_cases hz : it.token_index ≤ 0
  · rw [go_back_stay it hz] at h
    exact absurd (congrArg Prod.snd h) (by simp)
  · rw [go_back_step it (by omega)] at h
    exact ⟨(congrArg Prod.fst h).symm, by omega⟩

theorem go_back_false_inv {it it1 : token_iterator}
    (h : it.go_back = (it1, false)) :
    it1 = it ∧ it.token_index ≤ 0 := by
  by_cases hz : it.token_index ≤ 0
  · rw [go_back_stay it hz] at h
    exact ⟨(congrArg Prod.fst h).symm, hz⟩
  · rw [go_back_step it (by omega)] at h
    exact absurd (congrArg Prod.snd h) (by simp)

/-! ## Totality: no classification call ever accesses a token out of bounds
(the `none` of the embedding models a Go panic) and every loop's fuel
suffices. -/

theorem skip_loop_total (fuel : Nat) :
    ∀ (it : token_iterator) (l r : Tok) (b : Int),
      0 ≤ it.token_index → it.token_index < it.tokens.length →
      it.token_index.toNat + 1 ≤ fuel →
      ∃ it2 res, skip_loop fuel it l r b = some (it2, res) ∧
        it2.tokens = it.tokens ∧ 0 ≤ it2.token_index ∧
        it2.token_index ≤ it.token_index := by
  induction fuel with
  | zero => intro it l r b h0 h1 hf; omega
  | succ fuel ih =>
    intro it l r b h0 h1 hf
    by_cases hb : b = 0
    · exact ⟨it, true, by simp [skip_loop, hb], rfl, h0, le_refl _⟩
    · by_cases hz : it.token_index ≤ 0
      · exact ⟨it, false, by simp [skip_loop, hb, go_back_stay it hz], rfl, h0,
          le_refl _⟩
      · have hgb := go_back_step it (by omega)
        have h10 : (0 : Int) ≤ it.token_index - 1 := by omega
        have h11 : it.token_index - 1 < (it.tokens.length : Int) := by omega
        obtain ⟨t, ht⟩ :=
          token?_isSome { it with token_index := it.token_index - 1 } h10 h11
        obtain ⟨it2, res, hrun, hts, h20, h2le⟩ :=
          ih { it with token_index := it.token_index - 1 } l r
            (if t.tok = r then b + 1 else if t.tok = l then b - 1 else b)
            h10 h11 (by simp; omega)
        refine ⟨it2, res, ?_, hts, h20, by simp at h2le; omega⟩
        simp only [skip_loop, hb, if_false, hgb, ht, Option.some_bind]
        exact hrun

theorem skip_to_left_total (it : token_iterator) (l r : Tok)
    (h0 : 0 ≤ it.token_index) (h1 : it.token_index < it.tokens.length) :
    ∃ it2 res, it.skip_to_left l r = some (it2, res) ∧
      it2.tokens = it.tokens ∧ 0 ≤ it2.token_index ∧
      it2.token_index ≤ it.token_index := by
  obtain ⟨t, ht⟩ := token?_isSome it h0 h1
  by_cases heq : t.tok = l
  · exact ⟨it, true, by simp [token_iterator.skip_to_left, ht, heq], rfl, h0,
      le_refl _⟩
  · obtain ⟨it2, res, hrun, hts, h20, h2le⟩ :=
      skip_loop_total (it.token_index.toNat + 1) it l r 1 h0 h1 (le_refl _)
    exact ⟨it2, res, by simp [token_iterator.skip_to_left, ht, heq, hrun], hts,
      h20, h2le⟩

theorem skip_to_balanced_pair_total (it : token_iterator)
    (h0 : 0 ≤ it.token_index) (h1 : it.token_index < it.tokens.length) :
    ∃ it2 res, it.skip_to_balanced_pair = some (it2, res) ∧
      it2.tokens = it.tokens ∧ 0 ≤ it2.token_index ∧
      it2.token_index ≤ it.token_index := by
  obtain ⟨t, ht⟩ := token?_isSome it h0 h1
  obtain ⟨it2, res, hrun, hts, h20, h2le⟩ :=
    skip_to_left_total it (bracket_pairs_map t.tok) t.tok h0 h1
  exact ⟨it2, res, by simp [token_iterator.skip_to_balanced_pair, ht, hrun],
    hts, h20, h2le⟩

theorem extract_struct_type_total (it : token_iterator)
    (h0 : 0 ≤ it.token_index) (h1 : it.token_index < it.tokens.length) :
    ∃ s, it.extract_struct_type = some s := by
  obtain ⟨it2, res, hrun, hts, h20, h2le⟩ :=
    skip_to_left_total it .LBRACE .RBRACE h0 h1
  rw [token_iterator.extract_struct_type, token_iterator.skip_to_left_curly,
    hrun]
  simp only [Option.some_bind]
  split
  · exact ⟨"", rfl⟩
  split
  · exact ⟨"", rfl⟩
  next it3 hgb =>
    obtain ⟨hit3, hge⟩ := go_back_true_inv hgb
    have h30 : 0 ≤ it3.token_index := by rw [hit3]; simp; omega
    have h31 : it3.token_index < it3.tokens.length := by
      rw [hit3]; simp [hts]; omega
    obtain ⟨t3, ht3⟩ := token?_isSome it3 h30 h31
    rw [ht3]
    simp only [Option.some_bind]
    split
    · exact ⟨"", rfl⟩
    split
    · exact ⟨_, rfl⟩
    next it4 hgb4 =>
      obtain ⟨hit4, hge4⟩ := go_back_true_inv hgb4
      have h40 : 0 ≤ it4.token_index := by rw [hit4]; simp; omega
      have h41 : it4.token_index < it4.tokens.length := by
        rw [hit4]; simp; omega
      obtain ⟨t4, ht4⟩ := token?_isSome it4 h40 h41
      rw [ht4]
      simp only [Option.some_bind]
      split
      · exact ⟨_, rfl⟩
      split
      · exact ⟨_, rfl⟩
      next it5 hgb5 =>
        obtain ⟨hit5, hge5⟩ := go_back_true_inv hgb5
        have h50 : 0 ≤ it5.token_index := by rw [hit5]; simp; omega
        have h51 : it5.token_index < it5.tokens.length := by
          rw [hit5]; simp; omega
        obtain ⟨t5, ht5⟩ := token?_isSome it5 h50 h51
        rw [ht5]
        simp only [Option.some_bind]
        split
        · exact ⟨_, rfl⟩
        · exact ⟨_, rfl⟩

theorem ege_loop_total (fuel : Nat) :
    ∀ (it : token_iterator) (orig : Int) (prev : Tok),
      0 ≤ it.token_index → it.token_index < it.tokens.length →
      it.token_index.toNat + 1 ≤ fuel →
      ∃ s, ege_loop fuel it orig prev = some s := by
  induction fuel with
  | zero => intro it orig prev h0 h1 hf; omega
  | succ fuel ih =>
    intro it orig prev h0 h1 hf
    by_cases hz : it.token_index ≤ 0
    · exact ⟨token_items_to_string (it.tokens.take orig.toNat), by
        simp [ege_loop, go_back_stay it hz]⟩
    · have hgb := go_back_step it (by omega)
      have hJ0 : (0 : Int) ≤ it.token_index - 1 := by omega
      have hJ1 : it.token_index - 1 < (it.tokens.length : Int) := by omega
      obtain ⟨t, ht⟩ :=
        token?_isSome { it with token_index := it.token_index - 1 } hJ0 hJ1
      have skipcase : ∀ prev2 : Tok,
          ∃ s, (({ it with token_index := it.token_index - 1 } :
              token_iterator).skip_to_balanced_pair.bind fun a =>
                (a.1.token?).bind fun t2 => ege_loop fuel a.1 orig t2.tok) =
            some s := by
        intro prev2
        obtain ⟨it2, res, hrun, hts, h20, h2le⟩ :=
          skip_to_balanced_pair_total
            { it with token_index := it.token_index - 1 } hJ0 hJ1
        simp only [token_iterator.tokens] at hts
        simp only [token_iterator.token_index] at h2le
        have h21 : it2.token_index < (it2.tokens.length : Int) := by
          rw [hts]; omega
        obtain ⟨t2, ht2⟩ := token?_isSome it2 h20 h21
        rw [hrun]
        simp only [Option.some_bind, ht2]
        exact ih it2 orig t2.tok h20 h21 (by omega)
      simp only [ege_loop, hgb, ht, Option.some_bind]
      split
      · split
        · exact ih _ orig t.tok hJ0 hJ1 (by simp; omega)
        · exact ⟨_, rfl⟩
      · split
        · exact ih _ orig t.tok hJ0 hJ1 (by simp; omega)
        · exact ⟨_, rfl⟩
      · split
        · exact skipcase prev
        · exact ⟨_, rfl⟩
      · split
        · exact skipcase prev
        · exact ⟨_, rfl⟩
      · split
        · exact skipcase prev
        · exact ⟨_, rfl⟩
      · exact ⟨_, rfl⟩

theorem extract_go_expr_total (it : token_iterator)
    (h0 : 0 ≤ it.token_index) (h1 : it.token_index < it.tokens.length) :
    ∃ s, it.extract_go_expr = some s := by
  obtain ⟨t, ht⟩ := token?_isSome it h0 h1
  rw [token_iterator.extract_go_expr, ht]
  simp only [Option.some_bind]
  exact ege_loop_total _ it it.token_index t.tok h0 h1 (le_refl _)

theorem importStepD_total (path : String) (off : Int) (it4 : token_iterator)
    (h0 : 0 ≤ it4.token_index) (h1 : it4.token_index < it4.tokens.length) :
    ∃ v, importStepD path off it4 = some v := by
  obtain ⟨t4, ht4⟩ := token?_isSome it4 h0 h1
  rw [importStepD, ht4]
  simp only [Option.some_bind]
  split
  · exact ⟨_, rfl⟩
  · exact ⟨_, rfl⟩

theorem importStepC_total
    (rec : token_iterator → Option (cursorContext × String × String))
    (path : String) (off : Int) (it2 : token_iterator)
    (h0 : 0 ≤ it2.token_index) (h1 : it2.token_index < it2.tokens.length)
    (hrec : ∀ it3 : token_iterator, it3.tokens = it2.tokens →
      0 ≤ it3.token_index → it3.token_index ≤ it2.token_index - 1 →
      ∃ v, rec it3 = some v) :
    ∃ v, importStepC rec path off it2 = some v := by
  obtain ⟨t2, ht2⟩ := token?_isSome it2 h0 h1
  rw [importStepC, ht2]
  simp only [Option.some_bind]
  split
  · by_cases hz : it2.token_index ≤ 0
    · rw [go_back_stay it2 hz]
      exact ⟨_, rfl⟩
    · rw [go_back_step it2 (by omega)]
      have h30 : (0 : Int) ≤ it2.token_index - 1 := by omega
      have h31 : it2.token_index - 1 < (it2.tokens.length : Int) := by omega
      obtain ⟨t3, ht3⟩ :=
        token?_isSome { it2 with token_index := it2.token_index - 1 } h30 h31
      simp only [ht3, Option.some_bind]
      split
      · exact ⟨_, rfl⟩
      · exact hrec _ rfl h30 (by simp)
  split
  · by_cases hz : it2.token_index ≤ 0
    · rw [go_back_stay it2 hz]
      exact ⟨_, rfl⟩
    · rw [go_back_step it2 (by omega)]
      exact importStepD_total path off
        { it2 with token_index := it2.token_index - 1 } (by simp; omega)
        (by simp; omega)
  · exact importStepD_total path off it2 h0 h1

theorem importWalk_total (fuel : Nat) :
    ∀ (iter : token_iterator) (path : String) (off : Int),
      0 ≤ iter.token_index → iter.token_index < iter.tokens.length →
      iter.token_index.toNat + 1 ≤ fuel →
      ∃ v, importWalk fuel iter path off = some v := by
  induction fuel with
  | zero => intro iter path off h0 h1 hf; omega
  | succ fuel ih =>
    intro iter path off h0 h1 hf
    by_cases hz : iter.token_index ≤ 0
    · refine ⟨(.unknownContext, "", ""), ?_⟩
      simp only [importWalk, go_back_stay iter hz]
    · have hgb := go_back_step iter (by omega)
      have h10 : (0 : Int) ≤ iter.token_index - 1 := by omega
      have h11 : iter.token_index - 1 < (iter.tokens.length : Int) := by omega
      obtain ⟨t1, ht1⟩ :=
        token?_isSome { iter with token_index := iter.token_index - 1 } h10 h11
      have hC : ∀ itc : token_iterator, itc.tokens = iter.tokens →
          0 ≤ itc.token_index → itc.token_index ≤ iter.token_index - 1 →
          ∃ v, importStepC (fun it3 => importWalk fuel it3 path off)
            path off itc = some v := by
        intro itc hts h0c hlec
        have h1c : itc.token_index < (itc.tokens.length : Int) := by
          rw [hts]; omega
        refine importStepC_total _ path off itc h0c h1c ?_
        intro it3 hts3 h03 hle3
        have h13 : it3.token_index < (it3.tokens.length : Int) := by
          rw [hts3, hts]; omega
        exact ih it3 path off h03 h13 (by omega)
      simp only [importWalk, hgb, ht1, Option.some_bind]
      split
      · by_cases hz1 : iter.token_index - 1 ≤ 0
        · rw [go_back_stay { iter with token_index := iter.token_index - 1 }
            (by simpa using hz1)]
          exact ⟨_, rfl⟩
        · rw [go_back_step { iter with token_index := iter.token_index - 1 }
            (by simp; omega)]
          exact hC _ (by simp) (by simp <;> omega) (by simp <;> omega)
      · exact hC _ (by simp) (by simp <;> omega) (by simp <;> omega)

theorem classify_tail_partial (it : token_iterator) (partialId : String)
    (h0 : 0 ≤ it.token_index) (h1 : it.token_index < it.tokens.length) :
    ∃ c e, classify_tail it partialId = some (c, e, partialId) := by
  obtain ⟨t, ht⟩ := token?_isSome it h0 h1
  rw [classify_tail, ht]
  simp only [Option.some_bind]
  split
  · obtain ⟨s, hs⟩ := extract_go_expr_total it h0 h1
    exact ⟨_, s, by rw [hs]; rfl⟩
  · obtain ⟨s, hs⟩ := extract_struct_type_total it h0 h1
    exact ⟨_, s, by rw [hs]; rfl⟩
  · obtain ⟨s, hs⟩ := extract_struct_type_total it h0 h1
    exact ⟨_, s, by rw [hs]; rfl⟩
  · exact ⟨_, "", rfl⟩

theorem deduce_with_total (iter : token_iterator) (off : Int)
    (h : iter.tokens.length = 0 ∨
      (0 ≤ iter.token_index ∧ iter.token_index < iter.tokens.length)) :
    ∃ v, deduce_with iter off = some v := by
  by_cases hnil : iter.tokens.length = 0
  · exact ⟨(.unknownContext, "", ""), by rw [deduce_with, if_pos hnil]⟩
  · obtain ⟨h0, h1⟩ : 0 ≤ iter.token_index ∧
        iter.token_index < iter.tokens.length := by
      rcases h with h | h
      · exact absurd h hnil
      · exact h
    obtain ⟨tok, htok⟩ := token?_isSome iter h0 h1
    rw [deduce_with, if_neg hnil, htok]
    simp only [Option.some_bind]
    split
    · split
      · exact ⟨_, rfl⟩
      · exact importWalk_total _ iter _ off h0 h1 (le_refl _)
    · split
      · split
        · exact ⟨_, rfl⟩
        · by_cases hz : iter.token_index ≤ 0
          · rw [go_back_stay iter hz]
            exact ⟨_, rfl⟩
          · rw [go_back_step iter (by omega)]
            obtain ⟨c, e, hct⟩ :=
              classify_tail_partial
                { iter with token_index := iter.token_index - 1 }
                (if tok.tok = Tok.IDENT then strTake tok.literal off.toNat
                 else tok.literal)
                (by simp; omega) (by simp; omega)
            exact ⟨_, hct⟩
      · obtain ⟨c, e, hct⟩ := classify_tail_partial iter "" h0 h1
        exact ⟨_, hct⟩

theorem nti_token_index (src : List Char) (cursor : Nat) :
    (new_token_iterator src cursor).1.token_index =
      ((new_token_iterator src cursor).1.tokens.length : Int) - 1 := rfl

theorem deduce_total (file : List Char) (cursor : Nat) :
    ∃ v, deduce_cursor_context_helper file cursor = some v := by
  rw [deduce_cursor_context_helper]
  refine deduce_with_total _ _ ?_
  have hidx := nti_token_index file cursor
  by_cases hnil : (new_token_iterator file cursor).1.tokens.length = 0
  · exact Or.inl hnil
  · exact Or.inr ⟨by omega, by omega⟩

/-! ## Bracket balancing: `skip_to_balanced_pair` on a closer lands on its
syntactic opener -/

theorem IsPair.ne_lr {l r : Tok} (h : IsPair l r) : l ≠ r := by
  cases h <;> decide

theorem IsPair.map_eq {l r : Tok} (h : IsPair l r) : bracket_pairs_map r = l := by
  cases h <;> rfl

theorem IsPair.opener_iff {l r l2 r2 : Tok} (h : IsPair l r) (h2 : IsPair l2 r2) :
    l = l2 ↔ r = r2 := by
  cases h <;> cases h2 <;> decide

theorem IsPair.cross_ne {l r l2 r2 : Tok} (h : IsPair l r) (h2 : IsPair l2 r2) :
    l ≠ r2 := by
  cases h <;> cases h2 <;> decide

theorem IsPair.brackets {l r : Tok} (h : IsPair l r) :
    isBracketTok l = true ∧ isBracketTok r = true := by
  cases h <;> exact ⟨rfl, rfl⟩

theorem not_eq_nonbracket {x t : Tok} (hx : isBracketTok x = true)
    (ht : isBracketTok t = false) : ¬ (x = t) := fun he => by
  rw [he, ht] at hx
  exact Bool.noConfusion hx

theorem balanced_count_eq {l r : Tok} (hp : IsPair l r) :
    ∀ {w : List Tok}, BalancedToks w → w.count l = w.count r := by
  intro w hw
  induction hw with
  | nil => rfl
  | @atom t ts hbr hb ih =>
    have hl := not_eq_nonbracket (hp.brackets).1 hbr
    have hr := not_eq_nonbracket (hp.brackets).2 hbr
    simp [List.count_cons, hl, hr, ih]
  | @pair l2 r2 inner rest hp2 hbi hbr ih1 ih2 =>
    have hlr2 : ¬ (l = r2) := hp.cross_ne hp2
    have hrl2 : ¬ (r = l2) := fun he => (hp2.cross_ne hp) he.symm
    by_cases hll : l = l2
    · have hrr : r = r2 := (hp.opener_iff hp2).mp hll
      have hne : ¬ (l2 = r2) := hp2.ne_lr
      have hne2 : ¬ (r2 = l2) := fun he => hp2.ne_lr he.symm
      rw [hll, hrr] at ih1 ih2
      simp [List.count_cons, List.count_append, hll, hrr, hlr2, hrl2, hne,
        hne2, ih1, ih2]
      omega
    · have hrr : ¬ (r = r2) := fun he => hll ((hp.opener_iff hp2).mpr he)
      simp [List.count_cons, List.count_append, hll, hrr, hlr2, hrl2, ih1, ih2]

theorem suffix_append_cases {α : Type} {s B : List α} :
    ∀ {A : List α}, s <:+ A ++ B →
      s <:+ B ∨ ∃ s0, s0 <:+ A ∧ s = s0 ++ B := by
  intro A
  induction A generalizing s with
  | nil => exact fun h => Or.inl h
  | cons a A ih =>
    intro h
    rcases List.suffix_cons_iff.mp h with h | h
    · exact Or.inr ⟨a :: A, List.suffix_refl _, by simpa using h⟩
    · rcases ih h with h | ⟨s0, hs0, rfl⟩
      · exact Or.inl h
      · exact Or.inr ⟨s0, hs0.trans (List.suffix_cons a A), rfl⟩

theorem balanced_suffix_count_le {l r : Tok} (hp : IsPair l r) :
    ∀ {w : List Tok}, BalancedToks w → ∀ s, s <:+ w → s.count l ≤ s.count r := by
  intro w hw
  induction hw with
  | nil =>
    intro s hs
    simp [List.suffix_nil.mp hs]
  | @atom t ts hbr hb ih =>
    intro s hs
    rcases List.suffix_cons_iff.mp hs with rfl | hs
    · have hl := not_eq_nonbracket (hp.brackets).1 hbr
      have hr := not_eq_nonbracket (hp.brackets).2 hbr
      simpa [List.count_cons, hl, hr] using ih ts (List.suffix_refl ts)
    · exact ih s hs
  | @pair l2 r2 inner rest hp2 hbi hbr ih1 ih2 =>
    have hlr2 : ¬ (l = r2) := hp.cross_ne hp2
    have hcr : (r2 :: rest).count l ≤ (r2 :: rest).count r := by
      have hrest := ih2 rest (List.suffix_refl rest)
      by_cases hr2 : r = r2
      · rw [hr2] at hrest
        simp [List.count_cons, hlr2, hr2]
        omega
      · simp [List.count_cons, hlr2, hr2]
        omega
    intro s hs
    rcases List.suffix_cons_iff.mp hs with rfl | hs
    · exact le_of_eq (balanced_count_eq hp (BalancedToks.pair hp2 hbi hbr))
    · rcases suffix_append_cases hs with hs | ⟨s0, hs0, rfl⟩
      · rcases List.suffix_cons_iff.mp hs with rfl | hs
        · exact hcr
        · exact ih2 s hs
      · have h1 := ih1 s0 hs0
        simp only [List.count_append]
        omega

theorem cntTok_nil (t : Tok) : cntTok t [] = 0 := rfl

theorem cntTok_append (t : Tok) (a b : List token_item) :
    cntTok t (a ++ b) = cntTok t a + cntTok t b := by
  simp [cntTok, List.count_append]

theorem suffix_map_tok {s seg : List token_item} (h : s <:+ seg) :
    s.map token_item.tok <:+ seg.map token_item.tok := by
  obtain ⟨u, rfl⟩ := h
  exact ⟨u.map token_item.tok, by simp⟩

theorem skip_loop_zero (fuel : Nat) (it : token_iterator) (l r : Tok)
    (hf : 1 ≤ fuel) : skip_loop fuel it l r 0 = some (it, true) := by
  obtain ⟨f, rfl⟩ : ∃ f, fuel = f + 1 := ⟨fuel - 1, by omega⟩
  simp [skip_loop]

theorem skip_loop_succ_step (fuel : Nat) (T : List token_item) (idx : Int)
    (l r : Tok) (b : Int) (hb : b ≠ 0) (h1 : 1 ≤ idx) (t : token_item)
    (ht : (⟨T, idx - 1⟩ : token_iterator).token? = some t) :
    skip_loop (fuel + 1) ⟨T, idx⟩ l r b =
      skip_loop fuel ⟨T, idx - 1⟩ l r
        (if t.tok = r then b + 1 else if t.tok = l then b - 1 else b) := by
  have hgb := go_back_step ⟨T, idx⟩ h1
  simp only [skip_loop, if_neg hb, hgb, ht, Option.some_bind]

theorem skip_loop_spec (seg : List token_item) :
    ∀ (A B : List token_item) (li : token_item) (l r : Tok) (b idx : Int)
      (fuel : Nat) (T : List token_item),
      T = A ++ li :: seg ++ B →
      idx = (A.length : Int) + 1 + seg.length →
      li.tok = l → l ≠ r →
      (∀ s : List token_item, s <:+ seg →
        (cntTok l s : Int) ≤ b - 1 + cntTok r s) →
      ((b : Int) + cntTok r seg - cntTok l seg = 1) →
      seg.length + 2 ≤ fuel →
      skip_loop fuel ⟨T, idx⟩ l r b = some (⟨T, (A.length : Int)⟩, true) := by
  induction seg using List.reverseRecOn with
  | nil =>
    intro A B li l r b idx fuel T hT hidx hli hlr hsuf hend hf
    have hb : b = 1 := by simpa [cntTok_nil] using hend
    subst hb
    simp only [List.length_nil] at hidx hf
    obtain ⟨f, rfl⟩ : ∃ f, fuel = f + 2 := ⟨fuel - 2, by omega⟩
    have htk : (⟨T, idx - 1⟩ : token_iterator).token? = some li := by
      rw [token?_eq_get _ (by simp; omega)]
      have hnat : (idx - 1).toNat = A.length := by simp; omega
      simp only [hnat, hT]
      simpa using list_get_middle A li B
    rw [skip_loop_succ_step (f + 1) T idx l r 1 (by omega) (by omega) li htk,
      hli, if_neg (fun h : l = r => hlr h), if_pos rfl,
      show idx - 1 = ((A.length : Nat) : Int) by omega]
    exact skip_loop_zero (f + 1) ⟨T, (A.length : Int)⟩ l r (by omega)
  | append_singleton seg0 t ih =>
    intro A B li l r b idx fuel T hT hidx hli hlr hsuf hend hf
    have hb1 : (1 : Int) ≤ b := by
      have h0 := hsuf [] List.nil_suffix
      simp [cntTok_nil] at h0
      omega
    simp only [List.length_append, List.length_cons, List.length_nil] at hidx hf
    push_cast at hidx
    obtain ⟨f, rfl⟩ : ∃ f, fuel = f + 1 := ⟨fuel - 1, by omega⟩
    have hT2 : T = (A ++ li :: seg0) ++ t :: B := by rw [hT]; simp
    have htk : (⟨T, idx - 1⟩ : token_iterator).token? = some t := by
      rw [token?_eq_get _ (by simp; omega)]
      have hnat : (idx - 1).toNat = (A ++ li :: seg0).length := by
        simp [List.length_append]
        omega
      simp only [hnat, hT2]
      exact list_get_middle (A ++ li :: seg0) t B
    rw [skip_loop_succ_step f T idx l r b (by omega) (by omega) t htk]
    have hsapp : ∀ s : List token_item, s <:+ seg0 → s ++ [t] <:+ seg0 ++ [t] := by
      intro s hs
      obtain ⟨u, hu⟩ := hs
      exact ⟨u, by rw [← hu]; simp⟩
    by_cases htr : t.tok = r
    · rw [if_pos htr]
      have e1 : ∀ s : List token_item, cntTok r (s ++ [t]) = cntTok r s + 1 := by
        intro s
        simp [cntTok, List.count_append, List.count_cons, htr]
      have e2 : ∀ s : List token_item, cntTok l (s ++ [t]) = cntTok l s := by
        intro s
        simp [cntTok, List.count_append, List.count_cons, htr, hlr]
      have hsuf2 : ∀ s : List token_item, s <:+ seg0 →
          (cntTok l s : Int) ≤ (b + 1) - 1 + cntTok r s := by
        intro s hs
        have h := hsuf (s ++ [t]) (hsapp s hs)
        rw [e1, e2] at h
        push_cast at h ⊢
        omega
      have hend2 : ((b + 1 : Int)) + cntTok r seg0 - cntTok l seg0 = 1 := by
        rw [e1, e2] at hend
        push_cast at hend ⊢
        omega
      exact ih A (t :: B) li l r (b + 1) (idx - 1) f T (by rw [hT]; simp)
        (by push_cast; omega) hli hlr hsuf2 hend2 (by omega)
    · by_cases htl : t.tok = l
      · rw [if_neg htr, if_pos htl]
        have hrl : ¬ (r = l) := fun he => hlr he.symm
        have e1 : ∀ s : List token_item, cntTok r (s ++ [t]) = cntTok r s := by
          intro s
          simp [cntTok, List.count_append, List.count_cons, htl, hrl]
        have e2 : ∀ s : List token_item, cntTok l (s ++ [t]) = cntTok l s + 1 := by
          intro s
          simp [cntTok, List.count_append, List.count_cons, htl]
        have hsuf2 : ∀ s : List token_item, s <:+ seg0 →
            (cntTok l s : Int) ≤ (b - 1) - 1 + cntTok r s := by
          intro s hs
          have h := hsuf (s ++ [t]) (hsapp s hs)
          rw [e1, e2] at h
          push_cast at h ⊢
          omega
        have hend2 : ((b - 1 : Int)) + cntTok r seg0 - cntTok l seg0 = 1 := by
          rw [e1, e2] at hend
          push_cast at hend ⊢
          omega
        exact ih A (t :: B) li l r (b - 1) (idx - 1) f T (by rw [hT]; simp)
          (by push_cast; omega) hli hlr hsuf2 hend2 (by omega)
      · rw [if_neg htr, if_neg htl]
        have hr2 : ¬ (r = t.tok) := fun he => htr he.symm
        have hl2 : ¬ (l = t.tok) := fun he => htl he.symm
        have e1 : ∀ s : List token_item, cntTok r (s ++ [t]) = cntTok r s := by
          intro s
          simp [cntTok, List.count_append, List.count_cons, hr2]
        have e2 : ∀ s : List token_item, cntTok l (s ++ [t]) = cntTok l s := by
          intro s
          simp [cntTok, List.count_append, List.count_cons, hl2]
        have hsuf2 : ∀ s : List token_item, s <:+ seg0 →
            (cntTok l s : Int) ≤ b - 1 + cntTok r s := by
          intro s hs
          have h := hsuf (s ++ [t]) (hsapp s hs)
          rw [e1, e2] at h
          exact h
        have hend2 : ((b : Int)) + cntTok r seg0 - cntTok l seg0 = 1 := by
          rw [e1, e2] at hend
          exact hend
        exact ih A (t :: B) li l r b (idx - 1) f T (by rw [hT]; simp)
          (by push_cast; omega) hli hlr hsuf2 hend2 (by omega)

/-! ## Exhaustion: a closer with no opener anywhere in the prefix -/

theorem skip_loop_noopener (fuel : Nat) :
    ∀ (ts : List token_item) (ix : Int) (l r : Tok) (b : Int),
      1 ≤ b → 0 ≤ ix → ix < ts.length → ix.toNat + 1 ≤ fuel →
      (∀ (i : Nat) (x : token_item), (i : Int) < ix →
        ts[i]? = some x → x.tok ≠ l) →
      skip_loop fuel ⟨ts, ix⟩ l r b = some (⟨ts, 0⟩, false) := by
  induction fuel with
  | zero => intro ts ix l r b hb h0 h1 hf hno; omega
  | succ fuel ih =>
    intro ts ix l r b hb h0 h1 hf hno
    by_cases hz : ix ≤ 0
    · have hix0 : ix = 0 := by omega
      subst hix0
      simp [skip_loop, show ¬ (b = 0) by omega,
        go_back_stay ⟨ts, (0 : Int)⟩ (by simp)]
    · obtain ⟨x, hx⟩ := token?_isSome ⟨ts, ix - 1⟩ (by simp; omega) (by simp; omega)
      have hxe : ts[(ix - 1).toNat]? = some x := by
        rw [token?_eq_get _ (by simp; omega)] at hx
        exact hx
      have hne := hno (ix - 1).toNat x (by omega) hxe
      have hgb := go_back_step ⟨ts, ix⟩ (by simp; omega)
      simp only [skip_loop, show ¬ (b = 0) by omega, if_false, hgb, hx,
        Option.some_bind]
      have hb2 : (1 : Int) ≤ if x.tok = r then b + 1 else if x.tok = l
          then b - 1 else b := by
        by_cases hxr : x.tok = r
        · simp [hxr]; omega
        · simp [hxr, hne]; omega
      have := ih ts (ix - 1) l r _ hb2 (by omega) (by omega) (by omega)
        (fun i y hi hy => hno i y (by omega) hy)
      exact this

theorem skip_to_balanced_pair_noopener (ts : List token_item) (ix : Int)
    (l r : Tok) (x : token_item)
    (hp : IsPair l r)
    (hx : (⟨ts, ix⟩ : token_iterator).token? = some x)
    (hxr : x.tok = r)
    (hno : ∀ (i : Nat) (y : token_item), (i : Int) < ix →
      ts[i]? = some y → y.tok ≠ l) :
    (⟨ts, ix⟩ : token_iterator).skip_to_balanced_pair =
      some (⟨ts, 0⟩, false) := by
  have h0 : 0 ≤ ix := by
    by_contra hlt
    rw [token_iterator.token?, if_neg (by simpa using hlt)] at hx
    exact Option.noConfusion hx
  have h1 : ix < (ts.length : Int) := by
    have hx2 := hx
    rw [token?_eq_get _ h0] at hx2
    simp only [token_iterator.tokens, token_iterator.token_index] at hx2
    have hlt : ix.toNat < ts.length := by
      by_contra hge
      rw [List.getElem?_eq_none (by omega)] at hx2
      exact Option.noConfusion hx2
    omega
  rw [token_iterator.skip_to_balanced_pair, hx]
  simp only [Option.some_bind, hxr, hp.map_eq]
  rw [token_iterator.skip_to_left, hx]
  simp only [Option.some_bind, hxr, if_neg (fun h : r = l => hp.ne_lr h.symm)]
  exact skip_loop_noopener (ix.toNat + 1) ts ix l r 1 (le_refl _) h0 h1
    (le_refl _) hno

/-! ## The collection loop of `new_token_iterator` -/

theorem getLast?_cons_eq {α : Type} (x : α) (xs : List α) :
    (x :: xs).getLast? = some (xs.getLast?.getD x) := by
  induction xs generalizing x with
  | nil => rfl
  | cons y ys ih =>
    simp [List.getLast?_cons_cons, ih y]

theorem collect_loop_spec (cursorPos : Int) :
    ∀ (l : List scan_tok) (lastPos : Int),
      (collect_loop l lastPos cursorPos).1 =
        (l.takeWhile fun s => decide ((s.pos : Int) < cursorPos)).map
          (fun s => ({ tok := s.tok, lit := s.lit } : token_item)) ∧
      (collect_loop l lastPos cursorPos).2 =
        ((l.takeWhile fun s => decide ((s.pos : Int) < cursorPos)).getLast?.elim
          lastPos (fun s => (s.pos : Int))) := by
  intro l
  induction l with
  | nil => intro lastPos; simp [collect_loop]
  | cons s rest ih =>
    intro lastPos
    by_cases hc : cursorPos ≤ (s.pos : Int)
    · have hb : (decide ((s.pos : Int) < cursorPos)) = false := by
        simp; omega
      simp [collect_loop, if_pos hc, List.takeWhile_cons, hb]
    · have hb : (decide ((s.pos : Int) < cursorPos)) = true := by
        simp; omega
      refine ⟨?_, ?_⟩
      · simp only [collect_loop, if_neg hc, List.takeWhile_cons, hb, if_true,
          List.map_cons]
        rw [(ih s.pos).1]
      · simp only [collect_loop, if_neg hc, List.takeWhile_cons, hb, if_true]
        rw [(ih s.pos).2, getLast?_cons_eq]
        cases htw : (rest.takeWhile fun s =>
            decide ((s.pos : Int) < cursorPos)).getLast? with
        | none => simp [htw]
        | some y => simp [htw]

/-! ## Reading a token at an explicit index -/

theorem token?_at_index (ts : List token_item) (i : Nat) (h : i < ts.length) :
    (⟨ts, (i : Int)⟩ : token_iterator).token? = some (ts.getD i default) := by
  rw [token?_eq_get _ (by simp)]
  simp only [Int.toNat_natCast]
  rw [List.getElem?_eq_getElem h]
  congr 1
  rw [List.getD_eq_getElem ts default h]

theorem token?_some_bounds {it : token_iterator} {t : token_item}
    (h : it.token? = some t) :
    0 ≤ it.token_index ∧ it.token_index < it.tokens.length ∧
    it.tokens[it.token_index.toNat]? = some t := by
  by_cases h0 : 0 ≤ it.token_index
  · rw [token?_eq_get _ h0] at h
    have hlt : it.token_index.toNat < it.tokens.length := by
      by_contra hge
      rw [List.getElem?_eq_none (by omega)] at h
      exact Option.noConfusion h
    exact ⟨h0, by omega, h⟩
  · rw [token_iterator.token?, if_neg h0] at h
    exact absurd h (by simp)

/-! ## The claims -/

/-- Claim C1, counterexample: on the 13-byte input `import "foo/b` (no
closing quote) with the cursor at byte offset 13, the classifier returns
`(unknown, "", "")`, not the claimed `(import, "", "foo/b")`: the scanned
string literal is the 6 characters `"foo/b`, the trailing offset is 6, and
the strictly-inside guard `off >= len(path)` fires. -/
theorem C1_cex :
    deduce_cursor_context_helper ("import \"foo/b".data) 13 =
      some (.unknownContext, "", "") ∧
    deduce_cursor_context_helper ("import \"foo/b".data) 13 ≠
      some (.importContext, "", "foo/b") := by
  refine ⟨by decide, by decide⟩

/-- Claim C1, amended: with the closing quote present — input
`import "foo/b"` (14 bytes) and the cursor at byte offset 13, between the
`b` and the closing quote — the classifier returns the import context with
empty expression and partial path `foo/b`; on the original unterminated
input it returns `(unknown, "", "")` (see the counterexample). -/
theorem C1_thm :
    deduce_cursor_context_helper ("import \"foo/b\"".data) 13 =
      some (.importContext, "", "foo/b") := by
  decide

/-- Claim C3: for input `foo.Bar.Ba` with the cursor at byte offset 10
(right after `Ba`), the classifier returns the select context with
expression `foo.Bar` and partial identifier `Ba`. -/
theorem C3_thm :
    deduce_cursor_context_helper ("foo.Bar.Ba".data) 10 =
      some (.selectContext, "foo.Bar", "Ba") := by
  decide

/-- Claim C4: for input `Point{X: 1, Y` with the cursor at byte offset 13
(right after `Y`), the classifier returns the composite-literal context with
type name `Point` and partial identifier `Y`. -/
theorem C4_thm :
    deduce_cursor_context_helper ("Point\x7bX: 1, Y".data) 13 =
      some (.compositeLiteralContext, "Point", "Y") := by
  decide

/-- Claim C2: for any token sequence decomposing as
`pre ++ opener :: inner ++ closer :: post` with `(opener, closer)` one of the
three bracket families and `inner` properly nested (so that the closer's
syntactic match is that opener), `skip_to_balanced_pair` invoked with the
read position on the closer returns `true` and leaves the read index exactly
on the matching opener, for arbitrary nesting depth. -/
theorem C2_thm (pre inner post : List token_item) (l r : Tok) (ll rl : String)
    (hp : IsPair l r) (hbal : BalancedToks (inner.map token_item.tok)) :
    (⟨pre ++ ⟨l, ll⟩ :: inner ++ ⟨r, rl⟩ :: post,
        (pre.length : Int) + 1 + (inner.length : Int)⟩ :
      token_iterator).skip_to_balanced_pair =
    some (⟨pre ++ ⟨l, ll⟩ :: inner ++ ⟨r, rl⟩ :: post,
      (pre.length : Int)⟩, true) := by
  have hT2 : pre ++ (⟨l, ll⟩ : token_item) :: inner ++
      (⟨r, rl⟩ : token_item) :: post =
      (pre ++ ⟨l, ll⟩ :: inner) ++ (⟨r, rl⟩ : token_item) :: post := by
    simp
  have h0 : (0 : Int) ≤ (pre.length : Int) + 1 + (inner.length : Int) := by
    omega
  have htk : (⟨pre ++ ⟨l, ll⟩ :: inner ++ ⟨r, rl⟩ :: post,
      (pre.length : Int) + 1 + (inner.length : Int)⟩ :
        token_iterator).token? = some ⟨r, rl⟩ := by
    rw [token?_eq_get _ h0]
    simp only [token_iterator.tokens, token_iterator.token_index]
    have hnat : ((pre.length : Int) + 1 + (inner.length : Int)).toNat =
        (pre ++ (⟨l, ll⟩ : token_item) :: inner).length := by
      simp [List.length_append]
      omega
    rw [hnat, hT2]
    exact list_get_middle (pre ++ ⟨l, ll⟩ :: inner) ⟨r, rl⟩ post
  rw [token_iterator.skip_to_balanced_pair, htk]
  simp only [Option.some_bind, hp.map_eq]
  rw [token_iterator.skip_to_left, htk]
  simp only [Option.some_bind,
    if_neg (show ¬ ((⟨r, rl⟩ : token_item).tok = l) from
      fun h => hp.ne_lr h.symm)]
  refine skip_loop_spec inner pre ((⟨r, rl⟩ : token_item) :: post) ⟨l, ll⟩ l r
    1 _ _ _ rfl rfl rfl hp.ne_lr ?_ ?_ (by simp; omega)
  · intro s hs
    have hc := balanced_suffix_count_le hp hbal (s.map token_item.tok)
      (suffix_map_tok hs)
    simp only [cntTok]
    omega
  · have hc := balanced_count_eq hp hbal
    simp only [cntTok]
    omega

/-- Claim C2, witness: in the sequence `X { ( ) }` (as token items),
balancing from the final closing brace (index 4) lands on the opening brace
at index 1. -/
theorem C2_wit :
    BalancedToks [Tok.LPAREN, Tok.RPAREN] ∧
    (⟨[⟨Tok.IDENT, "X"⟩, ⟨Tok.LBRACE, ""⟩, ⟨Tok.LPAREN, ""⟩,
        ⟨Tok.RPAREN, ""⟩, ⟨Tok.RBRACE, ""⟩], (4 : Int)⟩ :
      token_iterator).skip_to_balanced_pair =
    some (⟨[⟨Tok.IDENT, "X"⟩, ⟨Tok.LBRACE, ""⟩, ⟨Tok.LPAREN, ""⟩,
      ⟨Tok.RPAREN, ""⟩, ⟨Tok.RBRACE, ""⟩], (1 : Int)⟩, true) := by
  have hbal : BalancedToks [Tok.LPAREN, Tok.RPAREN] :=
    BalancedToks.pair IsPair.paren BalancedToks.nil BalancedToks.nil
  refine ⟨hbal, ?_⟩
  have h := C2_thm [⟨Tok.IDENT, "X"⟩] [⟨Tok.LPAREN, ""⟩, ⟨Tok.RPAREN, ""⟩] []
    Tok.LBRACE Tok.RBRACE "" "" IsPair.brace hbal
  simpa using h

/-- Claim C5: the bracket balancer terminates and degrades gracefully.
First conjunct: on any in-range read position `skip_to_balanced_pair`
returns a result (the fuel the wrapper passes suffices, so the loop never
hangs or crashes).  Second conjunct: invoked on a closing bracket whose
matching opener kind occurs nowhere among the preceding tokens, it returns
`false` with the read index left at the oldest token, index 0.  Third
conjunct: the enclosing classification call always returns a defined
result. -/
theorem C5_thm :
    (∀ it : token_iterator, 0 ≤ it.token_index →
      it.token_index < it.tokens.length →
      (it.skip_to_balanced_pair).isSome) ∧
    (∀ (ts : List token_item) (ix : Int) (l r : Tok) (x : token_item),
      IsPair l r → (⟨ts, ix⟩ : token_iterator).token? = some x →
      x.tok = r →
      (∀ (i : Nat) (y : token_item), (i : Int) < ix →
        ts[i]? = some y → y.tok ≠ l) →
      (⟨ts, ix⟩ : token_iterator).skip_to_balanced_pair =
        some (⟨ts, 0⟩, false)) ∧
    (∀ (file : List Char) (cursor : Nat),
      (deduce_cursor_context_helper file cursor).isSome) := by
  refine ⟨?_, ?_, ?_⟩
  · intro it h0 h1
    obtain ⟨it2, res, hrun, -, -, -⟩ := skip_to_balanced_pair_total it h0 h1
    simp [hrun]
  · intro ts ix l r x hp hx hxr hno
    exact skip_to_balanced_pair_noopener ts ix l r x hp hx hxr hno
  · intro file cursor
    obtain ⟨v, hv⟩ := deduce_total file cursor
    simp [hv]

/-- Claim C5, witness: a lone closing parenthesis with no opener before it
makes the balancer fail with the index left at 0, and classification of an
empty buffer is still defined. -/
theorem C5_wit :
    ((⟨[⟨Tok.RPAREN, ""⟩], (0 : Int)⟩ :
        token_iterator).skip_to_balanced_pair =
      some (⟨[⟨Tok.RPAREN, ""⟩], 0⟩, false)) ∧
    (deduce_cursor_context_helper [] 0).isSome := by
  refine ⟨?_, C5_thm.2.2 [] 0⟩
  exact C5_thm.2.1 [⟨Tok.RPAREN, ""⟩] 0 Tok.LPAREN Tok.RPAREN ⟨Tok.RPAREN, ""⟩
    IsPair.paren (by decide) rfl (fun i y hi hy => absurd hi (by omega))

/-- Claim C6, counterexample: on the empty source with cursor offset 0 the
constructor collects zero tokens, yet the returned trailing offset is
`1 = cursorPos - NoPos` (in general `cursorOffset + 1`), not the claimed 0. -/
theorem C6_cex :
    (new_token_iterator [] 0).1.tokens = [] ∧
    (new_token_iterator [] 0).2 = 1 ∧ ¬ ((new_token_iterator [] 0).2 = 0) := by
  refine ⟨by decide, by decide, by decide⟩

/-- Claim C6, amended: the constructor collects exactly the scanned tokens
whose position is strictly before the cursor position `cursor + 1`; the
returned trailing offset equals `cursorOffset` minus the byte offset
(`pos - 1`) of the start of the last collected token; when zero tokens are
collected it equals `cursorOffset + 1` (the code computes
`cursorPos - NoPos` with `lastPos` still `NoPos = 0`), not 0 as claimed. -/
theorem C6_thm (src : List Char) (cursor : Nat) :
    (new_token_iterator src cursor).1.tokens =
      ((scan_go src).takeWhile fun s =>
        decide ((s.pos : Int) < (cursor : Int) + 1)).map
        (fun s => ({ tok := s.tok, lit := s.lit } : token_item)) ∧
    (∀ last : scan_tok,
      ((scan_go src).takeWhile fun s =>
        decide ((s.pos : Int) < (cursor : Int) + 1)).getLast? = some last →
      (new_token_iterator src cursor).2 =
        (cursor : Int) - ((last.pos : Int) - 1)) ∧
    (((scan_go src).takeWhile fun s =>
        decide ((s.pos : Int) < (cursor : Int) + 1)) = [] →
      (new_token_iterator src cursor).2 = (cursor : Int) + 1) := by
  have h := collect_loop_spec ((cursor : Int) + 1) (scan_go src) 0
  refine ⟨?_, ?_, ?_⟩
  · simp only [new_token_iterator]
    exact h.1
  · intro last hl
    simp only [new_token_iterator]
    rw [h.2, hl]
    simp [Option.elim]
    omega
  · intro hemp
    simp only [new_token_iterator]
    rw [h.2, hemp]
    simp [Option.elim]

/-- Claim C6, witness: for source `foo` with cursor 3, the single collected
token starts at byte offset 0 and the trailing offset is `3 - 0 = 3`. -/
theorem C6_wit :
    (new_token_iterator ("foo".data) 3).2 =
      (3 : Int) - (((1 : Nat) : Int) - 1) := by
  exact (C6_thm ("foo".data) 3).2.1 ⟨1, Tok.IDENT, "foo"⟩ (by decide)

theorem go_back_nat (ts : List token_item) (k : Nat) :
    (⟨ts, ((k + 1 : Nat) : Int)⟩ : token_iterator).go_back =
      (⟨ts, ((k : Nat) : Int)⟩, true) := by
  rw [go_back_step _ (by simp)]
  have : (((k + 1 : Nat) : Int)) - 1 = ((k : Nat) : Int) := by push_cast; ring
  simp [token_iterator.mk.injEq, this]

/-- Claim C7: when the structural-type extractor has reached the enclosing
open brace (read position on an `LBRACE` at index `j`) and the token just
before it is an identifier `b`, it returns `p.b` exactly when `b` is
immediately preceded by a period that is immediately preceded by an
identifier `p`, and just `b` in every other case — never recovering more
than one level of qualification.  Second conjunct: for the source
`pkg.Point{` with the cursor right after the brace, extraction on the
constructed iterator yields `pkg.Point`. -/
theorem C7_thm :
    (∀ (ts : List token_item) (j : Nat), j < ts.length → 1 ≤ j →
      (ts.getD j default).tok = Tok.LBRACE →
      (ts.getD (j - 1) default).tok = Tok.IDENT →
      (⟨ts, (j : Int)⟩ : token_iterator).extract_struct_type =
        some (if 3 ≤ j ∧ (ts.getD (j - 2) default).tok = Tok.PERIOD ∧
            (ts.getD (j - 3) default).tok = Tok.IDENT
          then (ts.getD (j - 3) default).literal ++ "." ++
            (ts.getD (j - 1) default).literal
          else (ts.getD (j - 1) default).literal)) ∧
    ((new_token_iterator ("pkg.Point\x7b".data) 10).1.extract_struct_type =
      some "pkg.Point") := by
  constructor
  · intro ts j hj h1j hbrace hident
    obtain ⟨k, rfl⟩ : ∃ k, j = k + 1 := ⟨j - 1, by omega⟩
    rw [token_iterator.extract_struct_type, token_iterator.skip_to_left_curly,
      token_iterator.skip_to_left, token?_at_index ts (k + 1) hj]
    simp only [Option.some_bind]
    rw [if_pos hbrace]
    simp only [Option.some_bind]
    rw [if_neg (show ¬ ((((⟨ts, ((k + 1 : Nat) : Int)⟩ : token_iterator),
      true) : token_iterator × Bool).2 = false) by simp)]
    rw [go_back_nat ts k]
    simp only [token?_at_index ts k (by omega), Option.some_bind]
    rw [if_neg (show ¬ ((ts.getD k default).tok ≠ Tok.IDENT) from
      fun h => h hident)]
    cases k with
    | zero =>
      rw [go_back_stay ⟨ts, ((0 : Nat) : Int)⟩ (by simp)]
      rw [if_neg (fun h : 3 ≤ 0 + 1 ∧ _ => absurd h.1 (by omega))]
    | succ k2 =>
      rw [go_back_nat ts k2]
      simp only [token?_at_index ts k2 (by omega), Option.some_bind]
      by_cases hper : (ts.getD k2 default).tok = Tok.PERIOD
      · rw [if_neg (show ¬ ((ts.getD k2 default).tok ≠ Tok.PERIOD) from
          fun h => h hper)]
        cases k2 with
        | zero =>
          rw [go_back_stay ⟨ts, ((0 : Nat) : Int)⟩ (by simp)]
          rw [if_neg (fun h : 3 ≤ 0 + 1 + 1 ∧ _ => absurd h.1 (by omega))]
        | succ k3 =>
          rw [go_back_nat ts k3]
          simp only [token?_at_index ts k3 (by omega), Option.some_bind]
          by_cases hid3 : (ts.getD k3 default).tok = Tok.IDENT
          · rw [if_neg (show ¬ ((ts.getD k3 default).tok ≠ Tok.IDENT) from
              fun h => h hid3)]
            rw [if_pos ⟨by omega, hper, hid3⟩]
            rw [show k3 + 1 + 1 + 1 - 3 = k3 from by omega,
              show k3 + 1 + 1 + 1 - 1 = k3 + 1 + 1 from by omega]
          · rw [if_pos (show (ts.getD k3 default).tok ≠ Tok.IDENT from hid3)]
            rw [if_neg (fun h : _ ∧ _ ∧ (ts.getD (k3 + 1 + 1 + 1 - 3)
              default).tok = Tok.IDENT => hid3 h.2.2)]
            rw [show k3 + 1 + 1 + 1 - 1 = k3 + 1 + 1 from by omega]
      · rw [if_pos (show (ts.getD k2 default).tok ≠ Tok.PERIOD from hper)]
        rw [if_neg (fun h : _ ∧ (ts.getD (k2 + 1 + 1 - 2) default).tok =
          Tok.PERIOD ∧ _ => hper h.2.1)]
        rw [show k2 + 1 + 1 - 1 = k2 + 1 from by omega]
  · decide

/-- Claim C7, witness: on the token sequence `pkg . Point {` with the read
position on the brace, extraction yields the qualified name `pkg.Point`. -/
theorem C7_wit :
    (⟨[⟨Tok.IDENT, "pkg"⟩, ⟨Tok.PERIOD, ""⟩, ⟨Tok.IDENT, "Point"⟩,
        ⟨Tok.LBRACE, ""⟩], ((3 : Nat) : Int)⟩ :
      token_iterator).extract_struct_type = some "pkg.Point" := by
  have h := C7_thm.1 [⟨Tok.IDENT, "pkg"⟩, ⟨Tok.PERIOD, ""⟩,
    ⟨Tok.IDENT, "Point"⟩, ⟨Tok.LBRACE, ""⟩] 3 (by decide) (by decide)
    (by decide) (by decide)
  exact h.trans (by decide)

/-- Claim C8: whenever the token immediately before the cursor is an
identifier and the trailing offset strictly exceeds the length of its
literal (the cursor sits in whitespace after the word), the classifier
returns `(unknown, "", "")` — never a stale partial identifier. -/
theorem C8_thm (file : List Char) (cursor : Nat) (t : token_item)
    (ht : (new_token_iterator file cursor).1.token? = some t)
    (hid : t.tok = Tok.IDENT)
    (hoff : (t.literal.length : Int) < (new_token_iterator file cursor).2) :
    deduce_cursor_context_helper file cursor =
      some (.unknownContext, "", "") := by
  obtain ⟨h0, h1, -⟩ := token?_some_bounds ht
  simp only [deduce_cursor_context_helper]
  rw [deduce_with, if_neg (by omega), ht]
  simp only [Option.some_bind]
  rw [if_neg (show ¬ (t.tok = Tok.STRING) by simp [hid]),
    if_pos (Or.inl hid), if_pos ⟨hid, hoff⟩]

/-- Claim C8, witness: source `foo ` (trailing space) with cursor at byte
offset 4: the last token is the identifier `foo` (length 3), the trailing
offset is 4, and classification returns `(unknown, "", "")`. -/
theorem C8_wit :
    ((new_token_iterator ("foo ".data) 4).1.token? =
      some ⟨Tok.IDENT, "foo"⟩) ∧
    (((⟨Tok.IDENT, "foo"⟩ : token_item).literal.length : Int) <
      (new_token_iterator ("foo ".data) 4).2) ∧
    deduce_cursor_context_helper ("foo ".data) 4 =
      some (.unknownContext, "", "") := by
  refine ⟨by decide, by decide, ?_⟩
  exact C8_thm ("foo ".data) 4 ⟨Tok.IDENT, "foo"⟩ (by decide) rfl (by decide)

/-- Claim C9: index safety.  First conjunct: `go_back` never drives a
non-negative read index below 0 (and preserves the token list, moving the
index only downwards).  Second conjunct: for every source and cursor the
whole classification call returns a result — in this embedding a `none`
models an out-of-bounds `tokens[token_index]` access, so producing `some`
means every `token()` call along every path was in range. -/
theorem C9_thm :
    (∀ it : token_iterator, 0 ≤ it.token_index →
      0 ≤ (it.go_back).1.token_index ∧
      (it.go_back).1.token_index ≤ it.token_index ∧
      (it.go_back).1.tokens = it.tokens) ∧
    (∀ (file : List Char) (cursor : Nat),
      ∃ v, deduce_cursor_context_helper file cursor = some v) := by
  constructor
  · intro it h0
    by_cases hz : it.token_index ≤ 0
    · rw [go_back_stay it hz]
      exact ⟨h0, le_refl _, rfl⟩
    · rw [go_back_step it (by omega)]
      exact ⟨by simp <;> omega, by simp <;> omega, rfl⟩
  · exact deduce_total

/-- Claim C9, witness: `go_back` at index 0 stays at index 0, and the
classification of `a.b` with the cursor at its end returns a result. -/
theorem C9_wit :
    (0 : Int) ≤
      (((⟨[⟨Tok.PERIOD, ""⟩], (0 : Int)⟩ :
        token_iterator).go_back).1.token_index) ∧
    ∃ v, deduce_cursor_context_helper ("a.b".data) 3 = some v :=
  ⟨(C9_thm.1 ⟨[⟨Tok.PERIOD, ""⟩], 0⟩ (le_refl 0)).1,
    C9_thm.2 ("a.b".data) 3⟩

/-- Claim C10: when the token immediately before the cursor is one of the
declaration keywords (`type`, `const`, `var`, `func`, `package`) the
trailing-whitespace guard is not applied: whatever the trailing offset, the
returned partial identifier is the full keyword text.  Second conjunct: the
source `var ` (trailing space) with cursor at byte offset 4 yields
`(unknown, "", "var")`, unlike an identifier in the same position. -/
theorem C10_thm :
    (∀ (file : List Char) (cursor : Nat) (t : token_item),
      (new_token_iterator file cursor).1.token? = some t →
      t.tok = Tok.TYPE ∨ t.tok = Tok.CONST ∨ t.tok = Tok.VAR ∨
        t.tok = Tok.FUNC ∨ t.tok = Tok.PACKAGE →
      ∃ c e, deduce_cursor_context_helper file cursor =
        some (c, e, t.literal)) ∧
    deduce_cursor_context_helper ("var ".data) 4 =
      some (.unknownContext, "", "var") := by
  constructor
  · intro file cursor t ht hkw
    obtain ⟨h0, h1, -⟩ := token?_some_bounds ht
    have hnid : ¬ (t.tok = Tok.IDENT) := by
      rcases hkw with h | h | h | h | h <;> simp [h]
    have hnstr : ¬ (t.tok = Tok.STRING) := by
      rcases hkw with h | h | h | h | h <;> simp [h]
    simp only [deduce_cursor_context_helper]
    rw [deduce_with, if_neg (by omega), ht]
    simp only [Option.some_bind]
    rw [if_neg hnstr, if_pos (Or.inr hkw), if_neg (fun h => hnid h.1),
      if_neg hnid]
    by_cases hz : (new_token_iterator file cursor).1.token_index ≤ 0
    · rw [go_back_stay _ hz]
      exact ⟨.unknownContext, "", rfl⟩
    · rw [go_back_step _ (by omega)]
      exact classify_tail_partial
        { (new_token_iterator file cursor).1 with
          token_index := (new_token_iterator file cursor).1.token_index - 1 }
        t.literal (by simp; omega) (by simp; omega)
  · decide

/-- Claim C10, witness: for `func ` with cursor at offset 5 the full keyword
`func` is returned as the partial even though the cursor is separated from
it by whitespace, and the concrete `var ` example evaluates as claimed. -/
theorem C10_wit :
    (∃ c e, deduce_cursor_context_helper ("func ".data) 5 =
      some (c, e, "func")) ∧
    deduce_cursor_context_helper ("var ".data) 4 =
      some (.unknownContext, "", "var") := by
  refine ⟨?_, C10_thm.2⟩
  exact C10_thm.1 ("func ".data) 5 ⟨Tok.FUNC, "func"⟩ (by decide)
    (Or.inr (Or.inr (Or.inr (Or.inl rfl))))
